import Mathlib

/-!
Verification development for the uncertainty-sampling scoring library
(`uncertainty_sampling_pytorch.py`).

The library consists of five pure functions on numeric vectors:
`softmax`, `margin_confidence`, `ratio_confidence`, `least_confidence`
and `entropy_score`.  Tensors are modelled as Lean lists.

The four uncertainty scorers only perform field arithmetic, comparison
and sorting, so they are embedded over `ℚ` (keeping them executable);
`softmax` (real exponentiation) and `entropy_score` (base-2 logarithm)
are embedded over `ℝ`.

Operations whose floating-point result is not a real number (division
when the denominator is zero yielding inf or NaN, and `log2` at a
non-positive argument yielding -inf or NaN, which then contaminates the
whole reduction) are embedded with `Option`, `none` standing for the
non-real outcome.
-/

namespace UncertaintySampling

/-- The probability-distribution precondition used throughout the spec:
entrywise non-negative values summing to 1. -/
def IsProbDist (l : List ℚ) : Prop := (∀ x ∈ l, 0 ≤ x) ∧ l.sum = 1

/-- Embedding of `torch.sort(t, descending=True)`'s value component: the
elements rearranged in descending order.  The source never sorts in
place; `torch.sort` returns a fresh tensor. -/
def descSort (l : List ℚ) : List ℚ := l.insertionSort (· ≥ ·)

/-- Embedding of `torch.max(t)`: the largest element of a non-empty
tensor (the `[]` case is junk; `torch.max` raises on an empty tensor,
and every claim assumes at least two elements). -/
def listMax : List ℚ → ℚ
  | [] => 0
  | [x] => x
  | x :: y :: xs => max x (listMax (y :: xs))

/-- Embedding of `softmax(tensor, base)`:
`exps = base**tensor; sum_exps = torch.sum(exps); return exps / sum_exps`.
Exponentiation is real (`Real.rpow`); the division is the total real
division (for the inputs the claims quantify over — positive base,
non-empty tensor — the denominator is strictly positive). -/
noncomputable def softmax (tensor : List ℝ) (base : ℝ) : List ℝ :=
  let exps := tensor.map fun x => base ^ x
  let sum_exps := exps.sum
  exps.map fun e => e / sum_exps

/-- Embedding of `margin_confidence(prob_dist, sorted)`:
sort descending unless `sorted`, then `1 - (pd[0] - pd[1])`.
Indexing is via `getD` with junk default 0; every claim assumes length
at least 2, where `getD` agrees with tensor indexing. -/
def margin_confidence (prob_dist : List ℚ) (sorted : Bool) : ℚ :=
  let pd := if sorted then prob_dist else descSort prob_dist
  let difference := pd.getD 0 0 - pd.getD 1 0
  1 - difference

/-- Embedding of `ratio_confidence(prob_dist, sorted)`:
sort descending unless `sorted`, then `pd[1] / pd[0]`.  A float division
by zero yields inf or NaN — not a real number — so the embedding returns
`none` when `pd[0] = 0` and `some (pd[1] / pd[0])` otherwise. -/
def ratio_confidence (prob_dist : List ℚ) (sorted : Bool) : Option ℚ :=
  let pd := if sorted then prob_dist else descSort prob_dist
  if pd.getD 0 0 = 0 then none else some (pd.getD 1 0 / pd.getD 0 0)

/-- Embedding of `least_confidence(prob_dist, sorted)`:
`simple_least_conf` is `prob_dist[0]` when `sorted` and
`torch.max(prob_dist)` otherwise; the result is
`(1 - simple_least_conf) * (num_labels / (num_labels - 1))`. -/
def least_confidence (prob_dist : List ℚ) (sorted : Bool) : ℚ :=
  let simple_least_conf := if sorted then prob_dist.getD 0 0 else listMax prob_dist
  let num_labels : ℚ := prob_dist.length
  (1 - simple_least_conf) * (num_labels / (num_labels - 1))

/-- Elementwise embedding of `prob_dist * torch.log2(prob_dist)`.
For a non-positive entry `p`, `log2 p` is -inf or NaN and the product
`p * log2 p` is NaN (in particular `0 * (-inf)` is NaN), which
contaminates the subsequent sum; the embedding propagates this as
`none`. -/
noncomputable def xlog2List : List ℝ → Option (List ℝ)
  | [] => some []
  | p :: ps =>
      if 0 < p then (xlog2List ps).map (fun ts => p * Real.logb 2 p :: ts)
      else none

/-- Embedding of `entropy_score(prob_dist)`:
`log_probs = prob_dist * torch.log2(prob_dist);
raw_entropy = 0 - torch.sum(log_probs);
return raw_entropy / math.log2(prob_dist.size(0))`. -/
noncomputable def entropy_score (prob_dist : List ℝ) : Option ℝ :=
  (xlog2List prob_dist).map fun log_probs =>
    (0 - log_probs.sum) / Real.logb 2 prob_dist.length

/-! State-passing embedding for the frame claim.  The caller's tensor is
the state threaded through the call; `torch.sort` is out-of-place (it
returns a fresh sorted tensor and leaves its argument untouched), which
`torch_sort_desc` records by returning the sorted values alongside the
unchanged buffer.  The local rebinding `prob_dist, _ = torch.sort(...)`
in the source changes only the local name, never the caller's tensor. -/

/-- Embedding of a call `torch.sort(buffer, descending=True)`: first
component the returned (fresh) sorted values, second component the
caller's buffer after the call. -/
def torch_sort_desc (buffer : List ℚ) : List ℚ × List ℚ :=
  (descSort buffer, buffer)

/-- State-passing form of `margin_confidence`: result together with the
caller's tensor after the call. -/
def margin_confidenceRun (buffer : List ℚ) (sorted : Bool) : ℚ × List ℚ :=
  if sorted then (1 - (buffer.getD 0 0 - buffer.getD 1 0), buffer)
  else
    let r := torch_sort_desc buffer
    (1 - (r.1.getD 0 0 - r.1.getD 1 0), r.2)

/-- State-passing form of `ratio_confidence`. -/
def ratio_confidenceRun (buffer : List ℚ) (sorted : Bool) :
    Option ℚ × List ℚ :=
  if sorted then
    (if buffer.getD 0 0 = 0 then none
     else some (buffer.getD 1 0 / buffer.getD 0 0), buffer)
  else
    let r := torch_sort_desc buffer
    (if r.1.getD 0 0 = 0 then none
     else some (r.1.getD 1 0 / r.1.getD 0 0), r.2)

/-- State-passing form of `least_confidence` (`torch.max` reads the
tensor without modifying it). -/
def least_confidenceRun (buffer : List ℚ) (sorted : Bool) : ℚ × List ℚ :=
  if sorted then
    ((1 - buffer.getD 0 0) *
      ((buffer.length : ℚ) / ((buffer.length : ℚ) - 1)), buffer)
  else
    ((1 - listMax buffer) *
      ((buffer.length : ℚ) / ((buffer.length : ℚ) - 1)), buffer)

/-! Helper lemmas about `listMax` and `descSort`. -/

theorem listMax_mem : ∀ (l : List ℚ), l ≠ [] → listMax l ∈ l
  | [x], _ => by simp [listMax]
  | x :: y :: xs, _ => by
      simp only [listMax]
      rcases max_cases x (listMax (y :: xs)) with h | h
      · rw [h.1]; exact List.mem_cons_self _ _
      · rw [h.1]
        exact List.mem_cons_of_mem _ (listMax_mem (y :: xs) (by simp))

theorem le_listMax : ∀ (l : List ℚ) (x : ℚ), x ∈ l → x ≤ listMax l
  | [y], x, hx => by
      simp only [List.mem_singleton] at hx
      simp [listMax, hx]
  | y :: z :: xs, x, hx => by
      simp only [listMax]
      rcases List.mem_cons.mp hx with rfl | hx2
      · exact le_max_left _ _
      · exact le_trans (le_listMax (z :: xs) x hx2) (le_max_right _ _)

theorem listMax_perm {l m : List ℚ} (h : l.Perm m) : listMax l = listMax m := by
  rcases eq_or_ne l [] with rfl | hl
  · rw [h.nil_eq]
  · have hm : m ≠ [] := by
      intro hm0
      exact hl (List.Perm.eq_nil (hm0 ▸ h))
    apply le_antisymm
    · exact le_listMax m _ (h.mem_iff.mp (listMax_mem l hl))
    · exact le_listMax l _ (h.mem_iff.mpr (listMax_mem m hm))

theorem listMax_of_sorted {x : ℚ} {t : List ℚ}
    (h : List.Sorted (· ≥ ·) (x :: t)) : listMax (x :: t) = x := by
  apply le_antisymm
  · rcases List.mem_cons.mp (listMax_mem (x :: t) (by simp)) with heq | hmem
    · exact le_of_eq heq
    · exact List.rel_of_sorted_cons h _ hmem
  · exact le_listMax _ x (List.mem_cons_self _ _)

theorem descSort_perm (l : List ℚ) : (descSort l).Perm l :=
  List.perm_insertionSort _ l

theorem descSort_sorted (l : List ℚ) : List.Sorted (· ≥ ·) (descSort l) :=
  List.sorted_insertionSort _ l

theorem descSort_length (l : List ℚ) : (descSort l).length = l.length :=
  (descSort_perm l).length_eq

theorem descSort_getD_zero {l : List ℚ} (hl : l ≠ []) :
    (descSort l).getD 0 0 = listMax l := by
  obtain ⟨x, t, hxt⟩ : ∃ x t, descSort l = x :: t := by
    cases hd : descSort l with
    | nil =>
        have hlen := descSort_length l
        rw [hd] at hlen
        simp only [List.length_nil] at hlen
        exact absurd (List.length_eq_zero.mp hlen.symm) hl
    | cons a b => exact ⟨a, b, rfl⟩
  rw [hxt, List.getD_cons_zero]
  calc x = listMax (x :: t) := (listMax_of_sorted (hxt ▸ descSort_sorted l)).symm
    _ = listMax l := listMax_perm (hxt ▸ descSort_perm l)

theorem descSort_getD_one {l : List ℚ} (hl : 2 ≤ l.length) :
    (descSort l).getD 1 0 = listMax (l.erase (listMax l)) := by
  obtain ⟨x, y, t, hxt⟩ : ∃ x y t, descSort l = x :: y :: t := by
    rcases hd : descSort l with _ | ⟨a, _ | ⟨c, d⟩⟩
    · have hlen := descSort_length l
      rw [hd] at hlen
      simp only [List.length_nil] at hlen
      omega
    · have hlen := descSort_length l
      rw [hd] at hlen
      simp only [List.length_cons, List.length_nil] at hlen
      omega
    · exact ⟨a, c, d, rfl⟩
  have hsorted := descSort_sorted l
  rw [hxt] at hsorted
  have hperm : (x :: y :: t).Perm l := hxt ▸ descSort_perm l
  have hxmax : x = listMax l := by
    calc x = listMax (x :: y :: t) := (listMax_of_sorted hsorted).symm
      _ = listMax l := listMax_perm hperm
  have hxl : x ∈ l := hperm.mem_iff.mp (List.mem_cons_self _ _)
  have htail : (y :: t).Perm (l.erase x) := by
    have h1 : (x :: y :: t).Perm (x :: l.erase x) :=
      hperm.trans (List.perm_cons_erase hxl)
    exact h1.cons_inv
  rw [hxt, List.getD_cons_succ, List.getD_cons_zero, ← hxmax]
  calc y = listMax (y :: t) := (listMax_of_sorted hsorted.of_cons).symm
    _ = listMax (l.erase x) := listMax_perm htail

theorem listMax_replicate {n : ℕ} (hn : 1 ≤ n) (q : ℚ) :
    listMax (List.replicate n q) = q := by
  have hne : List.replicate n q ≠ [] := by
    simp only [ne_eq, List.replicate_eq_nil_iff]
    omega
  exact List.eq_of_mem_replicate (listMax_mem _ hne)

/-- For a probability distribution, the largest entry is at most the total. -/
theorem listMax_le_one {l : List ℚ} (hl : l ≠ []) (hd : IsProbDist l) :
    listMax l ≤ 1 :=
  hd.2 ▸ List.single_le_sum hd.1 _ (listMax_mem l hl)

/-- For a probability distribution, `N * max ≥ 1` (the total is at most
`N` copies of the maximum). -/
theorem one_le_length_mul_listMax {l : List ℚ} (hd : IsProbDist l) :
    1 ≤ (l.length : ℚ) * listMax l := by
  have h := List.sum_le_card_nsmul l (listMax l) (fun x hx => le_listMax l x hx)
  rw [hd.2] at h
  simpa [nsmul_eq_mul] using h

/-- C2: margin_confidence returns `1 - (p1 - p2)` with `p1`, `p2` the
largest and second-largest entries (obtained by descending sort), the
result lies in `[0,1]`, and with `sorted = true` the same formula is
applied to the first two elements as given. -/
theorem margin_confidence_spec (dist : List ℚ) (h2 : 2 ≤ dist.length)
    (hd : IsProbDist dist) :
    margin_confidence dist false =
      1 - ((descSort dist).getD 0 0 - (descSort dist).getD 1 0) ∧
    (descSort dist).getD 0 0 = listMax dist ∧
    (descSort dist).getD 1 0 = listMax (dist.erase (listMax dist)) ∧
    0 ≤ margin_confidence dist false ∧
    margin_confidence dist false ≤ 1 ∧
    ∀ l : List ℚ, margin_confidence l true = 1 - (l.getD 0 0 - l.getD 1 0) := by
  have hne : dist ≠ [] := by
    intro h
    rw [h] at h2
    simp at h2
  have h0 := descSort_getD_zero hne
  have h1 := descSort_getD_one h2
  have hformula : margin_confidence dist false =
      1 - ((descSort dist).getD 0 0 - (descSort dist).getD 1 0) := rfl
  have hp2mem : listMax (dist.erase (listMax dist)) ∈ dist := by
    have herasene : dist.erase (listMax dist) ≠ [] := by
      have hlen := List.length_erase_of_mem (listMax_mem dist hne)
      intro h
      rw [h] at hlen
      simp only [List.length_nil] at hlen
      omega
    exact List.mem_of_mem_erase (listMax_mem _ herasene)
  have hp1le : listMax dist ≤ 1 := listMax_le_one hne hd
  have hp2nonneg : 0 ≤ listMax (dist.erase (listMax dist)) := hd.1 _ hp2mem
  have hp2le : listMax (dist.erase (listMax dist)) ≤ listMax dist :=
    le_listMax dist _ hp2mem
  refine ⟨hformula, h0, h1, ?_, ?_, ?_⟩
  · rw [hformula, h0, h1]
    linarith
  · rw [hformula, h0, h1]
    linarith
  · intro l
    rfl

/-- Witness for C2 at the distribution `[3/5, 2/5]`. -/
theorem margin_confidence_spec_witness :
    2 ≤ ([3/5, 2/5] : List ℚ).length ∧ IsProbDist [3/5, 2/5] ∧
    (margin_confidence [3/5, 2/5] false =
      1 - ((descSort [3/5, 2/5]).getD 0 0 - (descSort [3/5, 2/5]).getD 1 0) ∧
    (descSort [3/5, 2/5]).getD 0 0 = listMax [3/5, 2/5] ∧
    (descSort [3/5, 2/5]).getD 1 0 =
      listMax (([3/5, 2/5] : List ℚ).erase (listMax [3/5, 2/5])) ∧
    0 ≤ margin_confidence [3/5, 2/5] false ∧
    margin_confidence [3/5, 2/5] false ≤ 1 ∧
    ∀ l : List ℚ, margin_confidence l true = 1 - (l.getD 0 0 - l.getD 1 0)) :=
  ⟨by norm_num, by norm_num [IsProbDist],
    margin_confidence_spec _ (by norm_num) (by norm_num [IsProbDist])⟩

/-- C3 counterexample: at the one-hot distribution `[1,0,0,0]` the top
probability is strictly positive, yet `ratio_confidence` returns 0,
which is not strictly greater than 0 — the claimed interval `(0,1]`
does not hold. -/
theorem ratio_confidence_not_positive :
    IsProbDist [1, 0, 0, 0] ∧ 2 ≤ ([1, 0, 0, 0] : List ℚ).length ∧
    0 < listMax [1, 0, 0, 0] ∧
    ratio_confidence [1, 0, 0, 0] false = some 0 ∧ ¬ (0 : ℚ) < 0 := by
  refine ⟨⟨?_, ?_⟩, ?_, ?_, ?_, ?_⟩ <;>
    norm_num [listMax, ratio_confidence, descSort,
      List.insertionSort, List.orderedInsert]

/-- C3 amended: for a probability distribution with positive top
probability, `ratio_confidence` returns `some (p2 / p1)` (second-largest
over largest after descending sort), the value lies in the closed
interval `[0,1]` (it is 0 when the second-largest probability is 0), and
when the top probability is exactly 0 the float division produces no
real number (embedded as `none`). -/
theorem ratio_confidence_spec_amended (dist : List ℚ) (h2 : 2 ≤ dist.length)
    (hd : IsProbDist dist) (hp1 : 0 < listMax dist) :
    ratio_confidence dist false =
      some (listMax (dist.erase (listMax dist)) / listMax dist) ∧
    0 ≤ listMax (dist.erase (listMax dist)) / listMax dist ∧
    listMax (dist.erase (listMax dist)) / listMax dist ≤ 1 ∧
    (∀ l : List ℚ, (descSort l).getD 0 0 = 0 →
      ratio_confidence l false = none) ∧
    (∀ l : List ℚ, l.getD 0 0 = 0 → ratio_confidence l true = none) := by
  have hne : dist ≠ [] := by
    intro h
    rw [h] at h2
    simp at h2
  have h0 := descSort_getD_zero hne
  have h1 := descSort_getD_one h2
  have hp2mem : listMax (dist.erase (listMax dist)) ∈ dist := by
    have herasene : dist.erase (listMax dist) ≠ [] := by
      have hlen := List.length_erase_of_mem (listMax_mem dist hne)
      intro h
      rw [h] at hlen
      simp only [List.length_nil] at hlen
      omega
    exact List.mem_of_mem_erase (listMax_mem _ herasene)
  refine ⟨?_, ?_, ?_, ?_, ?_⟩
  · show (if (descSort dist).getD 0 0 = 0 then none
      else some ((descSort dist).getD 1 0 / (descSort dist).getD 0 0)) = _
    rw [h0, h1, if_neg hp1.ne']
  · exact div_nonneg (hd.1 _ hp2mem) hp1.le
  · exact (div_le_one hp1).mpr (le_listMax dist _ hp2mem)
  · intro l hl
    show (if (descSort l).getD 0 0 = 0 then none
      else some ((descSort l).getD 1 0 / (descSort l).getD 0 0)) = none
    rw [if_pos hl]
  · intro l hl
    show (if l.getD 0 0 = 0 then none
      else some (l.getD 1 0 / l.getD 0 0)) = none
    rw [if_pos hl]

/-- Witness for the amended C3 at the distribution `[1, 0]`. -/
theorem ratio_confidence_spec_amended_witness :
    2 ≤ ([1, 0] : List ℚ).length ∧ IsProbDist [1, 0] ∧
    0 < listMax [1, 0] ∧
    (ratio_confidence [1, 0] false =
      some (listMax (([1, 0] : List ℚ).erase (listMax [1, 0])) /
        listMax [1, 0]) ∧
    0 ≤ listMax (([1, 0] : List ℚ).erase (listMax [1, 0])) /
        listMax [1, 0] ∧
    listMax (([1, 0] : List ℚ).erase (listMax [1, 0])) /
        listMax [1, 0] ≤ 1 ∧
    (∀ l : List ℚ, (descSort l).getD 0 0 = 0 →
      ratio_confidence l false = none) ∧
    (∀ l : List ℚ, l.getD 0 0 = 0 → ratio_confidence l true = none)) :=
  ⟨by norm_num, by norm_num [IsProbDist], by norm_num [listMax],
    ratio_confidence_spec_amended _ (by norm_num)
      (by norm_num [IsProbDist]) (by norm_num [listMax])⟩

/-- C4 counterexample: `[0, 1]` is a probability distribution whose
first element is not its maximum; trusting `sorted = true` the code
returns `(1 - 0) * (2 / 1) = 2`, which is outside `[0,1]`. -/
theorem least_confidence_out_of_range :
    IsProbDist [0, 1] ∧ 2 ≤ ([0, 1] : List ℚ).length ∧
    least_confidence [0, 1] true = 2 ∧
    ¬ least_confidence [0, 1] true ≤ 1 := by
  refine ⟨⟨?_, ?_⟩, ?_, ?_, ?_⟩ <;> norm_num [IsProbDist, least_confidence]

/-- C4 amended: `least_confidence` returns
`(1 - p_max) * (N / (N - 1))` with `p_max` the first element when
`sorted = true` (trusted, unverified) and the true maximum when
`sorted = false`; the result lies in `[0,1]` when `sorted = false`
(for `sorted = true` it can leave `[0,1]` when the first element is not
the maximum), and the two modes disagree on `[0, 1]`, a vector whose
first element is not its maximum. -/
theorem least_confidence_spec_amended (dist : List ℚ) (h2 : 2 ≤ dist.length)
    (hd : IsProbDist dist) :
    least_confidence dist false =
      (1 - listMax dist) * ((dist.length : ℚ) / ((dist.length : ℚ) - 1)) ∧
    0 ≤ least_confidence dist false ∧
    least_confidence dist false ≤ 1 ∧
    (∀ l : List ℚ, least_confidence l true =
      (1 - l.getD 0 0) * ((l.length : ℚ) / ((l.length : ℚ) - 1))) ∧
    least_confidence [0, 1] true ≠ least_confidence [0, 1] false := by
  have hne : dist ≠ [] := by
    intro h
    rw [h] at h2
    simp at h2
  have hn : (2 : ℚ) ≤ (dist.length : ℚ) := by exact_mod_cast h2
  have hM1 : listMax dist ≤ 1 := listMax_le_one hne hd
  have hNM : 1 ≤ (dist.length : ℚ) * listMax dist :=
    one_le_length_mul_listMax hd
  have hformula : least_confidence dist false =
      (1 - listMax dist) * ((dist.length : ℚ) / ((dist.length : ℚ) - 1)) :=
    rfl
  refine ⟨hformula, ?_, ?_, fun l => rfl, ?_⟩
  · rw [hformula]
    apply mul_nonneg (by linarith)
    apply div_nonneg <;> linarith
  · rw [hformula, ← mul_div_assoc]
    rw [div_le_one (by linarith)]
    nlinarith
  · norm_num [least_confidence, listMax]

/-- Witness for the amended C4 at the distribution `[1, 0]`. -/
theorem least_confidence_spec_amended_witness :
    2 ≤ ([1, 0] : List ℚ).length ∧ IsProbDist [1, 0] ∧
    (least_confidence [1, 0] false =
      (1 - listMax [1, 0]) *
        ((([1, 0] : List ℚ).length : ℚ) /
          ((([1, 0] : List ℚ).length : ℚ) - 1)) ∧
    0 ≤ least_confidence [1, 0] false ∧
    least_confidence [1, 0] false ≤ 1 ∧
    (∀ l : List ℚ, least_confidence l true =
      (1 - l.getD 0 0) * ((l.length : ℚ) / ((l.length : ℚ) - 1))) ∧
    least_confidence [0, 1] true ≠ least_confidence [0, 1] false) :=
  ⟨by norm_num, by norm_num [IsProbDist],
    least_confidence_spec_amended _ (by norm_num) (by norm_num [IsProbDist])⟩

/-- C7: pre-sorting a distribution descending and passing
`sorted = true` yields exactly the same margin score as passing the raw
distribution with `sorted = false`. -/
theorem margin_confidence_presorted_eq (dist : List ℚ)
    (h2 : 2 ≤ dist.length) (hd : IsProbDist dist) :
    margin_confidence (descSort dist) true = margin_confidence dist false :=
  rfl

/-- Witness for C7 at the distribution `[1, 0]`. -/
theorem margin_confidence_presorted_eq_witness :
    2 ≤ ([1, 0] : List ℚ).length ∧ IsProbDist [1, 0] ∧
    margin_confidence (descSort [1, 0]) true =
      margin_confidence [1, 0] false :=
  ⟨by norm_num, by norm_num [IsProbDist],
    margin_confidence_presorted_eq _ (by norm_num) (by norm_num [IsProbDist])⟩

/-- C8: on any one-hot distribution (entries all 0 or 1, summing to 1)
of length at least 2, `margin_confidence`, `ratio_confidence` and
`least_confidence` all return 0. -/
theorem one_hot_scores (dist : List ℚ) (h2 : 2 ≤ dist.length)
    (h01 : ∀ x ∈ dist, x = 0 ∨ x = 1) (hsum : dist.sum = 1) :
    margin_confidence dist false = 0 ∧
    ratio_confidence dist false = some 0 ∧
    least_confidence dist false = 0 := by
  have hne : dist ≠ [] := by
    intro h
    rw [h] at h2
    simp at h2
  have hnn : ∀ x ∈ dist, 0 ≤ x := by
    intro x hx
    rcases h01 x hx with rfl | rfl <;> norm_num
  have h1mem : (1 : ℚ) ∈ dist := by
    by_contra hnot
    have hall0 : ∀ x ∈ dist, x = 0 := by
      intro x hx
      rcases h01 x hx with rfl | rfl
      · rfl
      · exact absurd hx hnot
    have h0 : dist.sum = 0 := List.sum_eq_zero hall0
    rw [hsum] at h0
    norm_num at h0
  have hmax : listMax dist = 1 := by
    apply le_antisymm
    · rcases h01 _ (listMax_mem dist hne) with h | h <;> rw [h]
      norm_num
    · exact le_listMax dist 1 h1mem
  have hsum_erase : (dist.erase 1).sum = 0 := by
    have hp := List.Perm.sum_eq (List.perm_cons_erase h1mem)
    rw [hsum, List.sum_cons] at hp
    linarith
  have herasene : dist.erase 1 ≠ [] := by
    have hlen := List.length_erase_of_mem h1mem
    intro h
    rw [h] at hlen
    simp only [List.length_nil] at hlen
    omega
  have hmax_erase : listMax (dist.erase 1) = 0 :=
    List.all_zero_of_le_zero_le_of_sum_eq_zero
      (fun y hy => hnn y (List.mem_of_mem_erase hy)) hsum_erase
      (listMax_mem _ herasene)
  have h0 := descSort_getD_zero hne
  have h1 := descSort_getD_one h2
  rw [hmax] at h0 h1
  refine ⟨?_, ?_, ?_⟩
  · show 1 - ((descSort dist).getD 0 0 - (descSort dist).getD 1 0) = 0
    rw [h0, h1, hmax_erase]
    norm_num
  · show (if (descSort dist).getD 0 0 = 0 then none
      else some ((descSort dist).getD 1 0 / (descSort dist).getD 0 0)) =
        some 0
    rw [h0, h1, hmax_erase]
    norm_num
  · show (1 - listMax dist) *
      ((dist.length : ℚ) / ((dist.length : ℚ) - 1)) = 0
    rw [hmax]
    ring

/-- Witness for C8 at the one-hot distribution `[1, 0, 0, 0]`. -/
theorem one_hot_scores_witness :
    2 ≤ ([1, 0, 0, 0] : List ℚ).length ∧
    (∀ x ∈ ([1, 0, 0, 0] : List ℚ), x = 0 ∨ x = 1) ∧
    ([1, 0, 0, 0] : List ℚ).sum = 1 ∧
    (margin_confidence [1, 0, 0, 0] false = 0 ∧
    ratio_confidence [1, 0, 0, 0] false = some 0 ∧
    least_confidence [1, 0, 0, 0] false = 0) :=
  ⟨by norm_num, by norm_num, by norm_num,
    one_hot_scores _ (by norm_num) (by norm_num) (by norm_num)⟩

/-- C9: in the state-passing embedding, each uncertainty scorer returns
the caller's tensor unchanged (the descending sort allocates a fresh
ordering instead of mutating its argument), and the returned score
agrees with the plain functional embedding. -/
theorem scorers_preserve_input (buffer : List ℚ) (sorted : Bool) :
    (margin_confidenceRun buffer sorted).2 = buffer ∧
    (ratio_confidenceRun buffer sorted).2 = buffer ∧
    (least_confidenceRun buffer sorted).2 = buffer ∧
    (margin_confidenceRun buffer sorted).1 = margin_confidence buffer sorted ∧
    (ratio_confidenceRun buffer sorted).1 = ratio_confidence buffer sorted ∧
    (least_confidenceRun buffer sorted).1 = least_confidence buffer sorted := by
  cases sorted <;>
    simp [margin_confidenceRun, ratio_confidenceRun, least_confidenceRun,
      torch_sort_desc, margin_confidence, ratio_confidence, least_confidence]

/-! Helper lemmas for the real-valued embeddings. -/

theorem getD_map_of_lt (f : ℝ → ℝ) (l : List ℝ) {i : ℕ} (hi : i < l.length) :
    (l.map f).getD i 0 = f (l.getD i 0) := by
  rw [List.getD_eq_getElem _ _ (by simpa using hi),
    List.getD_eq_getElem _ _ hi, List.getElem_map]

theorem xlog2List_of_pos : ∀ {l : List ℝ}, (∀ p ∈ l, 0 < p) →
    xlog2List l = some (l.map fun p => p * Real.logb 2 p)
  | [], _ => rfl
  | p :: ps, h => by
      simp only [xlog2List, List.map_cons]
      rw [if_pos (h p (List.mem_cons_self _ _)),
        xlog2List_of_pos fun q hq => h q (List.mem_cons_of_mem _ hq)]
      rfl

theorem xlog2List_of_zero_mem : ∀ {l : List ℝ}, (0 : ℝ) ∈ l →
    xlog2List l = none
  | p :: ps, h => by
      simp only [xlog2List]
      rcases List.mem_cons.mp h with rfl | hmem
      · rw [if_neg (lt_irrefl 0)]
      · by_cases hp : 0 < p
        · rw [if_pos hp, xlog2List_of_zero_mem hmem]
          rfl
        · rw [if_neg hp]

/-- C1: for a positive base and a non-empty tensor, `softmax` preserves
the length, its `i`-th entry is `base ^ x_i` divided by the sum of all
`base ^ x_j`, every entry is non-negative, and the entries sum to 1. -/
theorem softmax_spec (base : ℝ) (hb : 0 < base) (tensor : List ℝ)
    (hn : 1 ≤ tensor.length) :
    (softmax tensor base).length = tensor.length ∧
    (∀ i, i < tensor.length →
      (softmax tensor base).getD i 0 =
        base ^ tensor.getD i 0 / (tensor.map fun x => base ^ x).sum) ∧
    (∀ p ∈ softmax tensor base, 0 ≤ p) ∧
    (softmax tensor base).sum = 1 := by
  have hne : tensor ≠ [] := by
    intro h
    rw [h] at hn
    simp at hn
  have hrepr : softmax tensor base = (tensor.map fun x => base ^ x).map
      (fun e => e / (tensor.map fun x => base ^ x).sum) := rfl
  have hpos : ∀ e ∈ tensor.map fun x => base ^ x, 0 < e := by
    intro e he
    rcases List.mem_map.mp he with ⟨x, _, rfl⟩
    exact Real.rpow_pos_of_pos hb x
  have hSpos : 0 < (tensor.map fun x => base ^ x).sum := by
    apply List.sum_pos _ hpos
    simp [hne]
  refine ⟨?_, ?_, ?_, ?_⟩
  · rw [hrepr]
    simp
  · intro i hi
    rw [hrepr, getD_map_of_lt _ _ (by simpa using hi), getD_map_of_lt _ _ hi]
  · intro p hp
    rw [hrepr] at hp
    rcases List.mem_map.mp hp with ⟨e, he, rfl⟩
    exact div_nonneg (hpos e he).le hSpos.le
  · rw [hrepr]
    simp only [div_eq_mul_inv]
    rw [List.sum_map_mul_right]
    simp only [List.map_id']
    exact mul_inv_cancel₀ hSpos.ne'

/-- Witness for C1: base 2 on the tensor `[0, 0]`. -/
theorem softmax_spec_witness :
    (0 : ℝ) < 2 ∧ 1 ≤ ([0, 0] : List ℝ).length ∧
    ((softmax [0, 0] 2).length = ([0, 0] : List ℝ).length ∧
    (∀ i, i < ([0, 0] : List ℝ).length →
      (softmax [0, 0] 2).getD i 0 =
        (2 : ℝ) ^ (([0, 0] : List ℝ).getD i 0) /
          (([0, 0] : List ℝ).map fun x => (2 : ℝ) ^ x).sum) ∧
    (∀ p ∈ softmax [0, 0] 2, 0 ≤ p) ∧
    (softmax [0, 0] 2).sum = 1) :=
  ⟨by norm_num, by norm_num, softmax_spec 2 (by norm_num) [0, 0] (by norm_num)⟩

/-- C10: softmax is invariant under adding a constant to every input
entry — the common factor `base ^ c` cancels in the normalization, so
the caller-side stabilization of subtracting the maximum does not change
the mathematical result. -/
theorem softmax_shift_invariant (base : ℝ) (hb : 0 < base) (c : ℝ)
    (v : List ℝ) :
    softmax (v.map fun x => x + c) base = softmax v base := by
  have hbc : (0 : ℝ) < base ^ c := Real.rpow_pos_of_pos hb c
  have hrepr : ∀ w : List ℝ, softmax w base = (w.map fun x => base ^ x).map
      (fun e => e / (w.map fun x => base ^ x).sum) := fun _ => rfl
  have hmap : (v.map fun x => x + c).map (fun x => base ^ x) =
      v.map fun x => base ^ x * base ^ c := by
    rw [List.map_map]
    have : ((fun x => base ^ x) ∘ fun x => x + c) =
        fun x => base ^ x * base ^ c := by
      funext x
      simp only [Function.comp_apply]
      exact Real.rpow_add hb x c
    rw [this]
  rw [hrepr (v.map fun x => x + c), hrepr v, hmap, List.sum_map_mul_right,
    List.map_map, List.map_map]
  congr 1
  funext x
  simp only [Function.comp_apply]
  exact mul_div_mul_right _ _ hbc.ne'

/-- Witness for C10: shifting `[0]` by 1 with base 2. -/
theorem softmax_shift_invariant_witness :
    (0 : ℝ) < 2 ∧
    softmax (([0] : List ℝ).map fun x => x + 1) 2 = softmax [0] 2 :=
  ⟨by norm_num, softmax_shift_invariant 2 (by norm_num) 1 [0]⟩

/-- C6: a probability distribution containing an exact zero makes
`0 * log2 0` NaN (no zero special-casing in the code), so `entropy_score`
does not return a real number: the embedding yields `none`. -/
theorem entropy_score_undefined_at_zero (dist : List ℝ)
    (h2 : 2 ≤ dist.length) (hnn : ∀ p ∈ dist, 0 ≤ p) (hsum : dist.sum = 1)
    (h0 : (0 : ℝ) ∈ dist) :
    entropy_score dist = none := by
  unfold entropy_score
  rw [xlog2List_of_zero_mem h0]
  rfl

/-- Witness for C6 at the one-hot distribution `[1, 0]`. -/
theorem entropy_score_undefined_at_zero_witness :
    2 ≤ ([1, 0] : List ℝ).length ∧ (∀ p ∈ ([1, 0] : List ℝ), 0 ≤ p) ∧
    ([1, 0] : List ℝ).sum = 1 ∧ (0 : ℝ) ∈ ([1, 0] : List ℝ) ∧
    entropy_score [1, 0] = none :=
  ⟨by norm_num, by norm_num, by norm_num, by norm_num,
    entropy_score_undefined_at_zero _ (by norm_num) (by norm_num)
      (by norm_num) (by norm_num)⟩

theorem list_map_sum_eq_range_sum (f : ℝ → ℝ) :
    ∀ l : List ℝ, (l.map f).sum = ∑ i ∈ Finset.range l.length, f (l.getD i 0)
  | [] => by simp
  | x :: xs => by
      rw [List.map_cons, List.sum_cons, List.length_cons,
        Finset.sum_range_succ']
      simp only [List.getD_cons_succ, List.getD_cons_zero]
      rw [list_map_sum_eq_range_sum f xs]
      ring

/-- Gibbs-type bound: for a positive distribution the base-2 Shannon
entropy is at most `log2 N` (Jensen's inequality for the concave
`Real.log`). -/
theorem entropy_sum_le (dist : List ℝ) (hpos : ∀ p ∈ dist, 0 < p)
    (hsum : dist.sum = 1) :
    0 - (dist.map fun p => p * Real.logb 2 p).sum ≤
      Real.logb 2 dist.length := by
  have hw : ∀ i ∈ Finset.range dist.length, 0 < dist.getD i 0 := by
    intro i hi
    rw [Finset.mem_range] at hi
    rw [List.getD_eq_getElem _ _ hi]
    exact hpos _ (List.getElem_mem hi)
  have h₀ : ∀ i ∈ Finset.range dist.length, (0 : ℝ) ≤ dist.getD i 0 :=
    fun i hi => (hw i hi).le
  have h₁ : ∑ i ∈ Finset.range dist.length, dist.getD i 0 = 1 := by
    have h := list_map_sum_eq_range_sum (fun p => p) dist
    rw [List.map_id'] at h
    rw [← h]
    exact hsum
  have hmem : ∀ i ∈ Finset.range dist.length,
      (dist.getD i 0)⁻¹ ∈ Set.Ioi (0 : ℝ) :=
    fun i hi => Set.mem_Ioi.mpr (inv_pos.mpr (hw i hi))
  have hjensen := (strictConcaveOn_log_Ioi.concaveOn).le_map_sum h₀ h₁ hmem
  simp only [smul_eq_mul] at hjensen
  have hsum_inv : ∑ i ∈ Finset.range dist.length,
      dist.getD i 0 * (dist.getD i 0)⁻¹ = (dist.length : ℝ) := by
    rw [Finset.sum_congr rfl fun i hi => mul_inv_cancel₀ (hw i hi).ne']
    simp
  rw [hsum_inv] at hjensen
  have hL : ∑ i ∈ Finset.range dist.length,
      dist.getD i 0 * Real.log (dist.getD i 0)⁻¹ =
      -∑ i ∈ Finset.range dist.length,
        dist.getD i 0 * Real.log (dist.getD i 0) := by
    rw [← Finset.sum_neg_distrib]
    apply Finset.sum_congr rfl
    intro i _
    rw [Real.log_inv]
    ring
  rw [hL] at hjensen
  have hmap : (dist.map fun p => p * Real.logb 2 p).sum =
      (∑ i ∈ Finset.range dist.length,
        dist.getD i 0 * Real.log (dist.getD i 0)) / Real.log 2 := by
    rw [list_map_sum_eq_range_sum, Finset.sum_div]
    apply Finset.sum_congr rfl
    intro i _
    rw [← Real.log_div_log, mul_div_assoc]
  have hlog2 : (0 : ℝ) < Real.log 2 := Real.log_pos one_lt_two
  rw [hmap, ← Real.log_div_log, zero_sub, ← neg_div]
  exact (div_le_div_iff_of_pos_right hlog2).mpr hjensen

/-- C5: for a strictly positive probability distribution of length at
least 2, `entropy_score` returns the normalized base-2 Shannon entropy
`(-Σ p_i log2 p_i) / log2 N`, which lies in `[0,1]`; on the uniform
distribution it equals exactly 1, as does `least_confidence`. -/
theorem entropy_score_spec (dist : List ℝ) (h2 : 2 ≤ dist.length)
    (hpos : ∀ p ∈ dist, 0 < p) (hsum : dist.sum = 1) :
    entropy_score dist =
      some ((0 - (dist.map fun p => p * Real.logb 2 p).sum) /
        Real.logb 2 dist.length) ∧
    0 ≤ (0 - (dist.map fun p => p * Real.logb 2 p).sum) /
        Real.logb 2 dist.length ∧
    (0 - (dist.map fun p => p * Real.logb 2 p).sum) /
        Real.logb 2 dist.length ≤ 1 ∧
    ∀ n : ℕ, 2 ≤ n →
      entropy_score (List.replicate n ((n : ℝ)⁻¹)) = some 1 ∧
      least_confidence (List.replicate n ((n : ℚ)⁻¹)) false = 1 := by
  have hlen : (2 : ℝ) ≤ (dist.length : ℝ) := by exact_mod_cast h2
  have hlogNpos : 0 < Real.logb 2 (dist.length : ℝ) :=
    Real.logb_pos one_lt_two (by linarith)
  have hterm : ∀ p ∈ dist, p * Real.logb 2 p ≤ 0 := by
    intro p hp
    have hp1 : p ≤ 1 := by
      have := List.single_le_sum (fun q hq => (hpos q hq).le) p hp
      rw [hsum] at this
      exact this
    exact mul_nonpos_iff.mpr
      (Or.inl ⟨(hpos p hp).le, Real.logb_nonpos one_lt_two (hpos p hp).le hp1⟩)
  have hnum : 0 ≤ 0 - (dist.map fun p => p * Real.logb 2 p).sum := by
    have hle : (dist.map fun p => p * Real.logb 2 p).sum ≤ 0 := by
      have := List.sum_le_card_nsmul (dist.map fun p => p * Real.logb 2 p) 0
        (by
          intro x hx
          rcases List.mem_map.mp hx with ⟨p, hp, rfl⟩
          exact hterm p hp)
      simpa using this
    linarith
  refine ⟨?_, ?_, ?_, ?_⟩
  · unfold entropy_score
    rw [xlog2List_of_pos hpos]
    rfl
  · exact div_nonneg hnum hlogNpos.le
  · rw [div_le_one hlogNpos]
    exact entropy_sum_le dist hpos hsum
  · intro n hn
    have hnR : (2 : ℝ) ≤ (n : ℝ) := by exact_mod_cast hn
    have hnR0 : (0 : ℝ) < (n : ℝ) := by linarith
    constructor
    · have hposu : ∀ p ∈ List.replicate n ((n : ℝ)⁻¹), 0 < p := by
        intro p hp
        rw [List.eq_of_mem_replicate hp]
        exact inv_pos.mpr hnR0
      have hlogn : 0 < Real.logb 2 (n : ℝ) :=
        Real.logb_pos one_lt_two (by linarith)
      unfold entropy_score
      rw [xlog2List_of_pos hposu, List.map_replicate]
      show some ((0 - (List.replicate n
          ((n : ℝ)⁻¹ * Real.logb 2 (n : ℝ)⁻¹)).sum) /
        Real.logb 2 ((List.replicate n ((n : ℝ)⁻¹)).length : ℝ)) = some 1
      rw [List.sum_replicate, List.length_replicate, Real.logb_inv,
        nsmul_eq_mul]
      rw [show (0 : ℝ) - (n : ℝ) * ((n : ℝ)⁻¹ * -Real.logb 2 (n : ℝ)) =
        ((n : ℝ) * (n : ℝ)⁻¹) * Real.logb 2 (n : ℝ) from by ring]
      rw [mul_inv_cancel₀ hnR0.ne', one_mul, div_self hlogn.ne']
    · have hnQ : (2 : ℚ) ≤ (n : ℚ) := by exact_mod_cast hn
      have h0 : (n : ℚ) ≠ 0 := by
        intro h
        rw [h] at hnQ
        norm_num at hnQ
      have h1 : (n : ℚ) - 1 ≠ 0 := by
        intro h
        have : (n : ℚ) = 1 := by linarith
        rw [this] at hnQ
        norm_num at hnQ
      show (1 - listMax (List.replicate n ((n : ℚ)⁻¹))) *
        (((List.replicate n ((n : ℚ)⁻¹)).length : ℚ) /
          (((List.replicate n ((n : ℚ)⁻¹)).length : ℚ) - 1)) = 1
      rw [listMax_replicate (by omega) _, List.length_replicate]
      field_simp

/-- Witness for C5 at the uniform distribution `[1/2, 1/2]`. -/
theorem entropy_score_spec_witness :
    2 ≤ ([1/2, 1/2] : List ℝ).length ∧
    (∀ p ∈ ([1/2, 1/2] : List ℝ), 0 < p) ∧
    ([1/2, 1/2] : List ℝ).sum = 1 ∧
    (entropy_score [1/2, 1/2] =
      some ((0 - (([1/2, 1/2] : List ℝ).map
          fun p => p * Real.logb 2 p).sum) /
        Real.logb 2 (([1/2, 1/2] : List ℝ).length : ℝ)) ∧
    0 ≤ (0 - (([1/2, 1/2] : List ℝ).map fun p => p * Real.logb 2 p).sum) /
        Real.logb 2 (([1/2, 1/2] : List ℝ).length : ℝ) ∧
    (0 - (([1/2, 1/2] : List ℝ).map fun p => p * Real.logb 2 p).sum) /
        Real.logb 2 (([1/2, 1/2] : List ℝ).length : ℝ) ≤ 1 ∧
    ∀ n : ℕ, 2 ≤ n →
      entropy_score (List.replicate n ((n : ℝ)⁻¹)) = some 1 ∧
      least_confidence (List.replicate n ((n : ℚ)⁻¹)) false = 1) :=
  ⟨by norm_num, by norm_num, by norm_num,
    entropy_score_spec _ (by norm_num) (by norm_num) (by norm_num)⟩

end UncertaintySampling
